import Mathlib

/-!
Verification of `python_script/refactor_doc.py`.

The script is embedded shallowly: documents are lists of characters
(Python strings are sequences of code points), the pure text transform of
`process_md_file` is a Lean function, and the filesystem effects are
modelled as functions on an explicit list of files plus an event trace.
All path arithmetic (`os.path.relpath` on POSIX) is embedded with the
current working directory as an explicit parameter, since `relpath`
resolves both of its relative arguments against the process cwd.
-/

namespace RefactorDoc

/-- Characters of a string literal, the model of a Python `str`. -/
def chars (s : String) : List Char := s.data

/-- Python's `\s` character class restricted to ASCII (all characters the
script ever meets are ASCII): space, tab, newline, carriage return,
vertical tab, form feed. -/
def pyIsSpace (c : Char) : Bool :=
  c = ' ' || c = '\t' || c = '\n' || c = '\r' || c = '\x0b' || c = '\x0c'

/-- Python `str.strip()` on ASCII text: drop leading and trailing whitespace. -/
def pyStrip (l : List Char) : List Char :=
  ((l.dropWhile pyIsSpace).reverse.dropWhile pyIsSpace).reverse

/-- Index of the first occurrence of `pat` in `l` (Python `str.find` /
the start position chosen by `re.search`). -/
def findSub (pat : List Char) : List Char → Option Nat
  | [] => if pat.isPrefixOf ([] : List Char) then some 0 else none
  | c :: rest =>
    if pat.isPrefixOf (c :: rest) then some 0
    else (findSub pat rest).map (· + 1)

/-- The label marker searched for by `parse_inherits`. -/
def markerChars : List Char := chars "**Inherits:**"

/-- `parse_inherits` (refactor_doc.py lines 5-10): the result of
`re.search(r'\*\*Inherits:\*\*\s*([\s\S]*?)\n', md_content)` followed by
`.group(1).strip()`, or `none` when the pattern does not match.

The regex semantics are embedded exactly: after the literal marker the
greedy `\s*` consumes the maximal whitespace run; the lazy group then
captures up to the first newline at or after that point; if no newline
follows the run, the engine backtracks `\s*` until it sits on a newline
inside the run, leaving an empty capture; if the text after the marker
contains no newline at all the search fails (and no later occurrence of
the marker can match either, since it would need a newline even further
right). -/
def parse_inherits (md : List Char) : Option (List Char) :=
  match findSub markerChars md with
  | none => none
  | some i =>
    let after := md.drop (i + markerChars.length)
    let rest := after.dropWhile pyIsSpace
    if rest.contains '\n' then some (pyStrip (rest.takeWhile (fun c => c ≠ '\n')))
    else if (after.takeWhile pyIsSpace).contains '\n' then some []
    else none

/-- Split a path string on the separator `/`, keeping empty components,
like Python's `"…".split('/')`. -/
def splitSlash : List Char → List (List Char)
  | [] => [[]]
  | c :: rest =>
    if c = '/' then [] :: splitSlash rest
    else
      match splitSlash rest with
      | [] => [[c]]
      | h :: t => (c :: h) :: t

/-- `posixpath.normpath` on an absolute path given as its raw component
list (the part after the leading `/`): empty and `.` components vanish,
`..` pops the previous component and is dropped at the root. The result
is the component list of the normalized absolute path, which contains no
empty component, so it also equals
`[x for x in normpath(...).split('/') if x]` as computed by `relpath`. -/
def normAbs (comps : List (List Char)) : List (List Char) :=
  comps.foldl
    (fun acc c =>
      if c = [] ∨ c = ['.'] then acc
      else if c = ['.', '.'] then acc.dropLast
      else acc ++ [c]) []

/-- Length of the longest common prefix of two component lists
(`genericpath.commonprefix` on lists). -/
def commonPrefixLen : List (List Char) → List (List Char) → Nat
  | a :: as, b :: bs => if a = b then commonPrefixLen as bs + 1 else 0
  | _, _ => 0

/-- `os.path.relpath(path, start)` on POSIX for relative `path` and
`start`: both are resolved against the absolute working directory
(given by its component list `cwd`), normalized, and the relative walk
from `start` to `path` is emitted as `..` segments followed by the
unshared components; an empty walk is `.`. -/
def os_path_relpath (cwd : List (List Char)) (path start : List Char) : List Char :=
  let pl := normAbs (cwd ++ splitSlash path)
  let sl := normAbs (cwd ++ splitSlash start)
  let i := commonPrefixLen sl pl
  let rel := List.replicate (sl.length - i) ['.', '.'] ++ pl.drop i
  if rel = [] then ['.'] else List.intercalate ['/'] rel

/-- `default_path` of `replace_path` (refactor_doc.py line 15). -/
def default_path : List Char := chars "docs/docs/src"

/-- `start` of `replace_path` (refactor_doc.py line 17). -/
def startAnchor : List Char := chars "docs/docs/src/src/X/X/"

/-- `replace_path` (refactor_doc.py lines 14-20): strip the parentheses
from the matched text `(inner)`, concatenate `default_path` directly in
front of the inner text (the source inserts no separator), take the path
relative to the fixed anchor, and re-wrap in parentheses. -/
def replace_path (cwd : List (List Char)) (inner : List Char) : List Char :=
  '(' :: (os_path_relpath cwd (default_path ++ inner) startAnchor ++ [')'])

/-- Break a character list at its first `')'`:
`breakRParen l = some (run, tail)` iff `l = run ++ ')' :: tail` with no
`')'` in `run`; `none` iff `l` has no `')'`. -/
def breakRParen : List Char → Option (List Char × List Char)
  | [] => none
  | c :: rest =>
    if c = ')' then some ([], rest)
    else (breakRParen rest).map (fun p => (c :: p.1, p.2))

/-- Step-bounded core of `subParens`; the bound (first argument) only
ensures structural recursion and is irrelevant whenever it is at least
the length of the scanned list (`subParensFuel_congr`). -/
def subParensFuel (f : List Char → List Char) : Nat → List Char → List Char
  | _, [] => []
  | 0, l => l
  | fuel + 1, c :: rest =>
    if c = '(' then
      match breakRParen rest with
      | some (run, tl) =>
        if run = [] then c :: subParensFuel f fuel rest
        else f run ++ subParensFuel f fuel tl
      | none => c :: subParensFuel f fuel rest
    else c :: subParensFuel f fuel rest

/-- `re.sub(r'\([^)]+\)', f, line)`: scan left to right; at each `'('`
that is followed by at least one non-`')'` character and then a `')'`,
the whole span `(run)` is replaced by `f run` and scanning resumes after
the `')'`; any other character (including a `'('` with no match) is kept
and scanning moves one character right. Replacements are not rescanned.
The jump semantics are recovered by the `subParens_…` equations below. -/
def subParens (f : List Char → List Char) (l : List Char) : List Char :=
  subParensFuel f l.length l

/-- Whether the scanner of `subParens` finds any match in `l`: some
position holds a `'('` followed by a nonempty `')'`-free run and a `')'`. -/
def hasRef : List Char → Bool
  | [] => false
  | c :: rest =>
    (c == '(' &&
      (match breakRParen rest with
       | some (run, _) => !run.isEmpty
       | none => false)) || hasRef rest

/-- `replace_paths_with_empty_brackets` (refactor_doc.py lines 13-21):
rewrite every `(…)` span of `line` through `replace_path`. -/
def replace_paths_with_empty_brackets (cwd : List (List Char)) (line : List Char) :
    List Char :=
  subParens (replace_path cwd) line

/-- Step-bounded core of `pyReplaceGo`; the bound only ensures structural
recursion and is irrelevant whenever it is at least the length of the
scanned list (`pyReplaceGoFuel_congr`). -/
def pyReplaceGoFuel (old new : List Char) : Nat → List Char → List Char
  | _, [] => []
  | 0, l => l
  | fuel + 1, c :: rest =>
    if old.isPrefixOf (c :: rest) then
      new ++ pyReplaceGoFuel old new fuel (rest.drop (old.length - 1))
    else c :: pyReplaceGoFuel old new fuel rest

/-- Python `str.replace(old, new)` restricted to nonempty `old`: replace
every non-overlapping occurrence, scanning left to right; on a match the
scan resumes after the matched span. The scan semantics are recovered by
the `pyReplaceGo_…` equations below. -/
def pyReplaceGo (old new l : List Char) : List Char :=
  pyReplaceGoFuel old new l.length l

/-- Python `str.replace(old, new)` (all occurrences; an empty `old`
inserts `new` before every character and at the end). -/
def pyReplace (s old new : List Char) : List Char :=
  if old = [] then new ++ s.flatMap (fun c => c :: new)
  else pyReplaceGo old new s

/-- The pure text transform of `process_md_file` (refactor_doc.py lines
29-34), between the read and the write: parse the Inherits field; when it
is present and its stripped value nonempty (Python truthiness), replace
every occurrence of that value in the whole document with its rewritten
form; otherwise return the text unchanged. -/
def processContent (cwd : List (List Char)) (md : List Char) : List Char :=
  match parse_inherits md with
  | none => md
  | some inh =>
    if inh = [] then md
    else pyReplace md inh (replace_paths_with_empty_brackets cwd inh)

/-- A file of the tree: base name and text content (the directory plays
no role in any per-file decision of the script). -/
structure MDFile where
  name : List Char
  content : List Char
deriving DecidableEq

/-- Python `str.lower()` on ASCII names. -/
def lowerChars (l : List Char) : List Char := l.map Char.toLower

/-- `file_name.lower() in ['readme.md', 'summary.md']`
(refactor_doc.py line 44). -/
def isDeletedName (name : List Char) : Bool :=
  lowerChars name = chars "readme.md" || lowerChars name = chars "summary.md"

/-- `file.endswith('.md')` — the walker's case-sensitive extension filter
(refactor_doc.py line 52). -/
def endsWithMd (name : List Char) : Bool :=
  (chars ".md").isSuffixOf name

/-- Net filesystem effect of `process_md_file` (refactor_doc.py lines
24-46) on one file: the content is rewritten by the text transform and
written back; then, if the lowercased base name is `readme.md` or
`summary.md`, the file is removed (`none`). -/
def process_md_file (cwd : List (List Char)) (f : MDFile) : Option MDFile :=
  if isDeletedName f.name then none
  else some { name := f.name, content := processContent cwd f.content }

/-- One step of the batch loop (refactor_doc.py lines 50-54): a file is
handed to `process_md_file` only when its name ends with the literal
suffix `.md`; all other files are left as they are. -/
def processStep (cwd : List (List Char)) (f : MDFile) : Option MDFile :=
  if endsWithMd f.name then process_md_file cwd f else some f

/-- Net filesystem effect of `process_all_md_files` (refactor_doc.py
lines 49-54) on a tree of files, modelled as the list of files before
the run: every file is processed independently, so the final state is
the per-file step mapped over the tree, with deleted files removed. -/
def process_all_md_files (cwd : List (List Char)) (fs : List MDFile) : List MDFile :=
  fs.filterMap (processStep cwd)

/-- Observable filesystem actions of one `process_md_file` call. -/
inductive FileEvent where
  | read : List Char → List Char → FileEvent
  | write : List Char → List Char → FileEvent
  | delete : List Char → FileEvent
deriving DecidableEq

/-- The ordered filesystem actions of `process_md_file` (refactor_doc.py
lines 24-46): the file is always read and then always written back with
the transformed (possibly identical) text; the deletion check runs after
the write. -/
def processEvents (cwd : List (List Char)) (f : MDFile) : List FileEvent :=
  [FileEvent.read f.name f.content,
   FileEvent.write f.name (processContent cwd f.content)]
    ++ (if isDeletedName f.name then [FileEvent.delete f.name] else [])

/-- A per-file I/O failure, injected by the environment. -/
inductive FsError where
  | ioError
deriving DecidableEq

/-- The batch loop with the environment's failures made explicit: each
walked file carries `none` (its read and write succeed) or `some e` (its
processing raises `e`). The script installs no handler, so the first
failing `.md` file aborts the loop: that file and every later file keep
their prior state, while files already processed keep their new state.
Files not ending in `.md` are never touched and cannot fail. -/
def runBatch (cwd : List (List Char)) :
    List (MDFile × Option FsError) → List MDFile × Option FsError
  | [] => ([], none)
  | (f, e) :: rest =>
    if endsWithMd f.name then
      match e with
      | some err => (f :: rest.map Prod.fst, some err)
      | none =>
        let p := runBatch cwd rest
        match process_md_file cwd f with
        | some g => (g :: p.1, p.2)
        | none => (p.1, p.2)
    else
      let p := runBatch cwd rest
      (f :: p.1, p.2)

/-- Modelled from the spec: the rewritten reference the spec describes
for a Path Reference `(p)` — "the path obtained by resolving
`docs/docs/src/p` relative to `docs/docs/src/src/X/X/` using standard
relative-path resolution, re-wrapped in parentheses". It joins the base
path and `p` with a path separator; the source (`replace_path`)
concatenates them without one. The two are compared in the claim C1
theorems. -/
def specResolvedRef (cwd : List (List Char)) (p : List Char) : List Char :=
  '(' :: (os_path_relpath cwd (chars "docs/docs/src/" ++ p) startAnchor ++ [')'])

example : parse_inherits (chars "**Inherits:** (a)\n") = some (chars "(a)") := by decide
example : parse_inherits (chars "**Inherits:**   \nrest\n") = some (chars "rest") := by decide
example : parse_inherits (chars "**Inherits:** \n") = some [] := by decide
example : parse_inherits (chars "**Inherits:** x") = none := by decide
example : parse_inherits (chars "no label here\n") = none := by decide
example : parse_inherits (chars "**Inherits:** a \n") = some (chars "a") := by decide

example : splitSlash (chars "a/b") = [chars "a", chars "b"] := by decide
example : splitSlash (chars "a//b/") = [chars "a", [], chars "b", []] := by decide

example :
    os_path_relpath [] (chars "docs/docs/srca") (chars "docs/docs/src/src/X/X/") =
      chars "../../../../srca" := by decide
example :
    os_path_relpath [] (chars "docs/docs/src/src/X/X") (chars "docs/docs/src/src/X/X/") =
      chars "." := by decide

theorem breakRParen_length {l run tl : List Char} (h : breakRParen l = some (run, tl)) :
    tl.length < l.length := by
  induction l generalizing run tl with
  | nil => simp [breakRParen] at h
  | cons c rest ih =>
    by_cases hc : c = ')'
    · simp [breakRParen, hc] at h
      obtain ⟨h1, h2⟩ := h
      subst h2
      simp
    · simp [breakRParen, hc] at h
      obtain ⟨a, ha, h1⟩ := h
      have hlt := ih ha
      simp
      omega

theorem subParensFuel_congr (f : List Char → List Char) :
    ∀ (n m : Nat) (l : List Char), l.length ≤ n → l.length ≤ m →
      subParensFuel f n l = subParensFuel f m l := by
  intro n
  induction n with
  | zero =>
    intro m l hn _
    have : l = [] := List.eq_nil_of_length_eq_zero (Nat.le_zero.mp hn)
    subst this
    cases m <;> rfl
  | succ n ih =>
    intro m l hn hm
    cases l with
    | nil => cases m <;> rfl
    | cons c rest =>
      cases m with
      | zero => simp at hm
      | succ m =>
        simp at hn hm
        by_cases hc : c = '('
        · cases hbr : breakRParen rest with
          | none =>
            simp [subParensFuel, hc, hbr]
            exact ih m rest (by omega) (by omega)
          | some p =>
            obtain ⟨run, tl⟩ := p
            have htl := breakRParen_length hbr
            by_cases hrun : run = []
            · simp [subParensFuel, hc, hbr, hrun]
              exact ih m rest (by omega) (by omega)
            · simp [subParensFuel, hc, hbr, hrun]
              exact ih m tl (by omega) (by omega)
        · simp [subParensFuel, hc]
          exact ih m rest (by omega) (by omega)

theorem subParens_nil (f : List Char → List Char) : subParens f [] = [] := rfl

theorem subParens_not_lparen (f : List Char → List Char) {c : Char} (rest : List Char)
    (hc : c ≠ '(') : subParens f (c :: rest) = c :: subParens f rest := by
  simp [subParens, subParensFuel, hc]

theorem subParens_no_rparen (f : List Char → List Char) {rest : List Char}
    (h : breakRParen rest = none) : subParens f ('(' :: rest) = '(' :: subParens f rest := by
  simp [subParens, subParensFuel, h]

theorem subParens_empty_run (f : List Char → List Char) (rest tl : List Char)
    (h : breakRParen rest = some ([], tl)) :
    subParens f ('(' :: rest) = '(' :: subParens f rest := by
  simp [subParens, subParensFuel, h]

theorem subParens_match (f : List Char → List Char) {rest run tl : List Char}
    (h : breakRParen rest = some (run, tl)) (hrun : run ≠ []) :
    subParens f ('(' :: rest) = f run ++ subParens f tl := by
  have htl := breakRParen_length h
  simp [subParens, subParensFuel, h, hrun]
  exact subParensFuel_congr f rest.length tl.length tl (by omega) (by omega)

example :
    replace_paths_with_empty_brackets [] (chars "(a)") = chars "(../../../../srca)" := by
  decide
example :
    replace_paths_with_empty_brackets [] (chars "(/x), ()") = chars "(../../../x), ()" := by
  decide

theorem pyReplaceGoFuel_congr (old new : List Char) :
    ∀ (n m : Nat) (l : List Char), l.length ≤ n → l.length ≤ m →
      pyReplaceGoFuel old new n l = pyReplaceGoFuel old new m l := by
  intro n
  induction n with
  | zero =>
    intro m l hn _
    have : l = [] := List.eq_nil_of_length_eq_zero (Nat.le_zero.mp hn)
    subst this
    cases m <;> rfl
  | succ n ih =>
    intro m l hn hm
    cases l with
    | nil => cases m <;> rfl
    | cons c rest =>
      cases m with
      | zero => simp at hm
      | succ m =>
        simp at hn hm
        have hd : (rest.drop (old.length - 1)).length ≤ rest.length := by simp
        by_cases hp : old.isPrefixOf (c :: rest)
        · simp [pyReplaceGoFuel, hp]
          exact ih m (rest.drop (old.length - 1)) (by omega) (by omega)
        · simp [pyReplaceGoFuel, hp]
          exact ih m rest (by omega) (by omega)

theorem pyReplaceGo_nil (old new : List Char) : pyReplaceGo old new [] = [] := rfl

theorem pyReplaceGo_pos (old new : List Char) {c : Char} {rest : List Char}
    (h : old.isPrefixOf (c :: rest)) :
    pyReplaceGo old new (c :: rest) = new ++ pyReplaceGo old new (rest.drop (old.length - 1)) := by
  simp [pyReplaceGo, pyReplaceGoFuel, h]
  apply pyReplaceGoFuel_congr <;> simp

theorem pyReplaceGo_neg (old new : List Char) {c : Char} {rest : List Char}
    (h : ¬ old.isPrefixOf (c :: rest)) :
    pyReplaceGo old new (c :: rest) = c :: pyReplaceGo old new rest := by
  simp [pyReplaceGo, pyReplaceGoFuel, h]

example : pyReplace (chars "xaxa") (chars "a") (chars "bb") = chars "xbbxbb" := by decide
example : pyReplace (chars "abc") [] (chars "X") = chars "XaXbXcX" := by decide
example : pyReplace (chars "aaa") (chars "aa") (chars "b") = chars "ba" := by decide

example :
    processContent [] (chars "**Inherits:** (a)\n") =
      chars "**Inherits:** (../../../../srca)\n" := by decide
example : processContent [] (chars "nothing here\n") = chars "nothing here\n" := by decide

theorem breakRParen_of_split {p w : List Char} (hp : ')' ∉ p) :
    breakRParen (p ++ ')' :: w) = some (p, w) := by
  induction p with
  | nil => simp [breakRParen]
  | cons c q ih =>
    have hc : c ≠ ')' := fun h => hp (h ▸ List.mem_cons_self c q)
    have hq : ')' ∉ q := fun h => hp (List.mem_cons_of_mem c h)
    simp [breakRParen, hc, ih hq]

theorem subParens_append_no_lparen (f : List Char → List Char) {u : List Char}
    (v : List Char) (hu : '(' ∉ u) : subParens f (u ++ v) = u ++ subParens f v := by
  induction u with
  | nil => simp
  | cons c q ih =>
    have hc : c ≠ '(' := fun h => hu (h ▸ List.mem_cons_self c q)
    have hq : '(' ∉ q := fun h => hu (List.mem_cons_of_mem c h)
    simp only [List.cons_append]
    rw [subParens_not_lparen f (q ++ v) hc, ih hq]

theorem subParens_of_not_hasRef (f : List Char → List Char) :
    ∀ {v : List Char}, hasRef v = false → subParens f v = v := by
  intro v
  induction v with
  | nil => intro _; exact subParens_nil f
  | cons c rest ih =>
    intro h
    simp only [hasRef, Bool.or_eq_false_iff, Bool.and_eq_false_iff] at h
    obtain ⟨h1, h2⟩ := h
    by_cases hc : c = '('
    · subst hc
      cases hbr : breakRParen rest with
      | none => rw [subParens_no_rparen f hbr, ih h2]
      | some p =>
        obtain ⟨run, tl⟩ := p
        have hrun : run = [] := by
          rcases h1 with h1 | h1
          · simp at h1
          · rw [hbr] at h1
            simp at h1
            exact h1
        subst hrun
        rw [subParens_empty_run f _ _ hbr, ih h2]
    · rw [subParens_not_lparen f rest hc, ih h2]

theorem pyReplaceGo_of_no_occur {old new : List Char} :
    ∀ {v : List Char}, (∀ i, i < v.length → old.isPrefixOf (v.drop i) = false) →
      pyReplaceGo old new v = v := by
  intro v
  induction v with
  | nil => intro _; exact pyReplaceGo_nil old new
  | cons c rest ih =>
    intro h
    have h0 : old.isPrefixOf (c :: rest) = false := by
      simpa using h 0 (by simp)
    rw [pyReplaceGo_neg old new (by simp [h0])]
    rw [ih (fun i hi => by simpa using h (i + 1) (by simpa using hi))]

theorem pyReplaceGo_leftmost {old : List Char} (new : List Char) (hne : old ≠ []) :
    ∀ (u v : List Char),
      (∀ i, i < u.length → old.isPrefixOf ((u ++ old ++ v).drop i) = false) →
      pyReplaceGo old new (u ++ old ++ v) = u ++ new ++ pyReplaceGo old new v := by
  intro u
  induction u with
  | nil =>
    intro v _
    obtain ⟨o, old', rfl⟩ : ∃ o old', old = o :: old' := by
      cases old with
      | nil => exact absurd rfl hne
      | cons o old' => exact ⟨o, old', rfl⟩
    have hpre : (o :: old').isPrefixOf (o :: (old' ++ v)) := by
      simp [List.isPrefixOf_iff_prefix]
    simp only [List.nil_append, List.cons_append]
    rw [pyReplaceGo_pos (o :: old') new hpre]
    have hdrop : (old' ++ v).drop ((o :: old').length - 1) = v := by
      simp
    rw [hdrop]
  | cons c u' ih =>
    intro v h
    have h0 : old.isPrefixOf (c :: (u' ++ (old ++ v))) = false := by
      simpa using h 0 (by simp)
    simp only [List.cons_append, List.append_assoc] at h0 ⊢
    rw [pyReplaceGo_neg old new (by simp [h0])]
    rw [show u' ++ (old ++ v) = u' ++ old ++ v by simp]
    rw [ih v (fun i hi => by
      have := h (i + 1) (by simpa using hi)
      simpa using this)]
    simp

/-- The text transform leaves a document without the label marker
unchanged (the `re.search` fails exactly when the marker is absent). -/
theorem processContent_of_no_marker (cwd : List (List Char)) {md : List Char}
    (h : findSub markerChars md = none) : processContent cwd md = md := by
  simp [processContent, parse_inherits, h]

example : endsWithMd (chars "README.md") = true := by decide
example : endsWithMd (chars "summary.MD") = false := by decide
example : isDeletedName (chars "summary.MD") = true := by decide
example : isDeletedName (chars "SUMMARY.md") = true := by decide
example : isDeletedName (chars "notes.md") = false := by decide

/-- Claim C1, counterexample. The claim reads the rewritten reference as
the resolution of `docs/docs/src/p` (a path join) against the anchor.
The source builds `'docs/docs/src' + p` with no separator, so for the
document `**Inherits:** (a)\n` — whose field holds exactly one
well-formed Path Reference with `p = "a"` — the code produces
`(../../../../srca)` while the claimed resolution of `docs/docs/src/a`
is `(../../../a)`. -/
theorem claim1_counterexample :
    parse_inherits (chars "**Inherits:** (a)\n") = some (chars "(a)") ∧
    replace_paths_with_empty_brackets [] (chars "(a)") = chars "(../../../../srca)" ∧
    specResolvedRef [] (chars "a") = chars "(../../../a)" ∧
    replace_paths_with_empty_brackets [] (chars "(a)") ≠ specResolvedRef [] (chars "a") := by
  decide

/-- Claim C1, amended: for every document whose labeled field contains
exactly one well-formed Path Reference `(p)` — the field splits as
`pre ++ "(" ++ p ++ ")" ++ post` where `pre` holds no `'('`, `p` is
nonempty without `')'`, and `post` holds no further match — the
rewritten field keeps `pre` and `post` and rewrites the reference to the
path obtained by resolving the concatenation `docs/docs/src` ++ `p`
(no separator inserted) relative to `docs/docs/src/src/X/X/`, re-wrapped
in parentheses. -/
theorem claim1_single_ref_rewrite (cwd : List (List Char))
    (md inh pre p post : List Char)
    (hparse : parse_inherits md = some inh)
    (hinh : inh = pre ++ '(' :: (p ++ ')' :: post))
    (hpre : '(' ∉ pre) (hp : p ≠ []) (hrp : ')' ∉ p)
    (hpost : hasRef post = false) :
    replace_paths_with_empty_brackets cwd inh =
      pre ++ ('(' :: (os_path_relpath cwd (default_path ++ p) startAnchor ++ [')']) ++ post) := by
  subst hinh
  unfold replace_paths_with_empty_brackets
  rw [subParens_append_no_lparen _ _ hpre]
  rw [subParens_match _ (breakRParen_of_split hrp) hp]
  rw [subParens_of_not_hasRef _ hpost]
  rfl

theorem claim1_single_ref_rewrite_witness :
    parse_inherits (chars "**Inherits:** (a)\n") = some (chars "(a)") ∧
    replace_paths_with_empty_brackets [] (chars "(a)") =
      [] ++ ('(' :: (os_path_relpath [] (default_path ++ chars "a") startAnchor ++ [')']) ++ []) :=
  ⟨by decide,
    claim1_single_ref_rewrite [] (chars "**Inherits:** (a)\n") (chars "(a)") [] (chars "a") []
      (by decide) (by decide) (by decide) (by decide) (by decide) (by decide)⟩

/-- Claim C2, counterexample. The walker admits a file only when its
name ends with the lowercase suffix `.md`, so the file `summary.MD` —
whose base name compared case-insensitively equals `summary.md` — is
never processed and still exists after a batch run over a root that
contains it. -/
theorem claim2_counterexample :
    process_all_md_files [] [⟨chars "summary.MD", chars "x\n"⟩] =
      [⟨chars "summary.MD", chars "x\n"⟩] ∧
    lowerChars (chars "summary.MD") = chars "summary.md" := by
  decide

/-- Claim C2, amended: after a batch run, no surviving file both ends
with the exact lowercase suffix `.md` and has a base name that compared
case-insensitively equals `readme.md` or `summary.md`; files whose
extension differs in case (such as `summary.MD`) are skipped by the
walker's case-sensitive filter and survive. -/
theorem claim2_md_deleted (cwd : List (List Char)) (fs : List MDFile) (g : MDFile)
    (hg : g ∈ process_all_md_files cwd fs) (hmd : endsWithMd g.name = true) :
    isDeletedName g.name = false := by
  rcases List.mem_filterMap.mp hg with ⟨a, _, hstep⟩
  by_cases h1 : endsWithMd a.name = true
  · by_cases h2 : isDeletedName a.name = true
    · simp [processStep, process_md_file, h1, h2] at hstep
    · simp [processStep, process_md_file, h1, h2] at hstep
      rw [← hstep]
      simpa using h2
  · simp [processStep, h1] at hstep
    subst hstep
    exact absurd hmd h1

theorem claim2_md_deleted_witness :
    (⟨chars "notes.md", chars "x\n"⟩ : MDFile) ∈
      process_all_md_files []
        [⟨chars "README.md", chars "x\n"⟩, ⟨chars "notes.md", chars "x\n"⟩] ∧
    isDeletedName (chars "notes.md") = false :=
  ⟨by decide,
    claim2_md_deleted []
      [⟨chars "README.md", chars "x\n"⟩, ⟨chars "notes.md", chars "x\n"⟩]
      ⟨chars "notes.md", chars "x\n"⟩ (by decide) (by decide)⟩

/-- Claim C3, counterexample. `md_content.replace(inherits,
modified_inherits)` replaces every occurrence, not only the first: in
`**Inherits:** (a)\n(a)\n` the captured value `(a)` recurs on the second
line, and after processing that later occurrence is rewritten too,
contradicting the claim that later occurrences remain unchanged. -/
theorem claim3_counterexample :
    processContent [] (chars "**Inherits:** (a)\n(a)\n") =
      chars "**Inherits:** (../../../../srca)\n(../../../../srca)\n" ∧
    processContent [] (chars "**Inherits:** (a)\n(a)\n") ≠
      chars "**Inherits:** (../../../../srca)\n(a)\n" := by
  decide

/-- Claim C3, amended: when a labeled field is found and rewritten,
every textual occurrence of the original captured value anywhere in the
full document is replaced by the rewritten value (a global all-occurrence
substring replace): splitting the document at the first occurrence of
the captured value, the prefix is kept, that occurrence is rewritten,
and the replacement continues through the rest of the document. -/
theorem claim3_replaces_all (cwd : List (List Char)) (md inh u v : List Char)
    (hparse : parse_inherits md = some inh) (hne : inh ≠ [])
    (hmd : md = u ++ inh ++ v)
    (hfirst : ∀ i, i < u.length → inh.isPrefixOf ((u ++ inh ++ v).drop i) = false) :
    processContent cwd md =
      u ++ replace_paths_with_empty_brackets cwd inh ++
        pyReplaceGo inh (replace_paths_with_empty_brackets cwd inh) v := by
  subst hmd
  simp only [processContent, hparse, hne, if_false, pyReplace, if_neg hne]
  exact pyReplaceGo_leftmost _ hne u v hfirst

theorem claim3_replaces_all_witness :
    parse_inherits (chars "**Inherits:** (a)\n(a)\n") = some (chars "(a)") ∧
    processContent [] (chars "**Inherits:** (a)\n(a)\n") =
      chars "**Inherits:** " ++ replace_paths_with_empty_brackets [] (chars "(a)") ++
        pyReplaceGo (chars "(a)") (replace_paths_with_empty_brackets [] (chars "(a)"))
          (chars "\n(a)\n") :=
  ⟨by decide,
    claim3_replaces_all [] (chars "**Inherits:** (a)\n(a)\n") (chars "(a)")
      (chars "**Inherits:** ") (chars "\n(a)\n")
      (by decide) (by decide) (by decide) (by decide)⟩

/-- Claim C4: a document without the label marker is returned verbatim
by the text transform, and the file survives the batch run with its
content intact whenever its name does not satisfy the deletion rule
(the rule depends only on the name: lowercase-`.md` suffix and
case-insensitive base name `readme.md`/`summary.md`). -/
theorem claim4_no_marker_unchanged (cwd : List (List Char)) (fs : List MDFile) (f : MDFile)
    (hmem : f ∈ fs)
    (hm : findSub markerChars f.content = none)
    (hdel : ¬ (endsWithMd f.name = true ∧ isDeletedName f.name = true)) :
    processContent cwd f.content = f.content ∧ f ∈ process_all_md_files cwd fs := by
  have ht := processContent_of_no_marker cwd hm
  refine ⟨ht, List.mem_filterMap.mpr ⟨f, hmem, ?_⟩⟩
  by_cases h1 : endsWithMd f.name = true
  · have h2 : isDeletedName f.name = false := by
      cases hid : isDeletedName f.name
      · rfl
      · exact absurd ⟨h1, hid⟩ hdel
    simp [processStep, process_md_file, h1, h2, ht]
  · simp [processStep, h1]

theorem claim4_no_marker_unchanged_witness :
    findSub markerChars (chars "hello\n") = none ∧
    processContent [] (chars "hello\n") = chars "hello\n" ∧
    (⟨chars "notes.md", chars "hello\n"⟩ : MDFile) ∈
      process_all_md_files [] [⟨chars "notes.md", chars "hello\n"⟩] :=
  ⟨by decide,
    (claim4_no_marker_unchanged [] [⟨chars "notes.md", chars "hello\n"⟩]
      ⟨chars "notes.md", chars "hello\n"⟩ (by decide) (by decide) (by decide)).1,
    (claim4_no_marker_unchanged [] [⟨chars "notes.md", chars "hello\n"⟩]
      ⟨chars "notes.md", chars "hello\n"⟩ (by decide) (by decide) (by decide)).2⟩

/-- Claim C5: the text transform is not idempotent. On
`**Inherits:** (/x)\n` one pass rewrites the reference to
`(../../../x)`; a second pass prepends the base path to that
already-relative path again and produces `(../../../../../x)`. -/
theorem claim5_not_idempotent :
    processContent [] (processContent [] (chars "**Inherits:** (/x)\n")) ≠
      processContent [] (chars "**Inherits:** (/x)\n") := by
  decide

/-- Claim C6, counterexample. In `(a)\n**Inherits:** (a)\n` the Path
Reference `(a)` on the first line lies outside the labeled field, yet
processing rewrites it (the all-occurrence replace hits it first): the
document's four leading characters change. -/
theorem claim6_counterexample :
    (processContent [] (chars "(a)\n**Inherits:** (a)\n")).take 4 ≠
      (chars "(a)\n**Inherits:** (a)\n").take 4 := by
  decide

/-- Claim C6, amended: processing rewrites exactly the occurrences of
the captured field value; when that value occurs exactly once in the
document, everything outside it — all non-field content and every Path
Reference elsewhere — is left unmodified. -/
theorem claim6_frame (cwd : List (List Char)) (md inh u v : List Char)
    (hparse : parse_inherits md = some inh) (hne : inh ≠ [])
    (hmd : md = u ++ inh ++ v)
    (hfirst : ∀ i, i < u.length → inh.isPrefixOf ((u ++ inh ++ v).drop i) = false)
    (hv : ∀ i, i < v.length → inh.isPrefixOf (v.drop i) = false) :
    processContent cwd md = u ++ replace_paths_with_empty_brackets cwd inh ++ v := by
  subst hmd
  simp only [processContent, hparse, hne, if_false, pyReplace, if_neg hne]
  rw [pyReplaceGo_leftmost _ hne u v hfirst, pyReplaceGo_of_no_occur hv]

theorem claim6_frame_witness :
    parse_inherits (chars "x(b)x\n**Inherits:** (a)\ny\n") = some (chars "(a)") ∧
    processContent [] (chars "x(b)x\n**Inherits:** (a)\ny\n") =
      chars "x(b)x\n**Inherits:** " ++ replace_paths_with_empty_brackets [] (chars "(a)") ++
        chars "\ny\n" :=
  ⟨by decide,
    claim6_frame [] (chars "x(b)x\n**Inherits:** (a)\ny\n") (chars "(a)")
      (chars "x(b)x\n**Inherits:** ") (chars "\ny\n")
      (by decide) (by decide) (by decide) (by decide) (by decide)⟩

/-- Claim C7, counterexample. Even for a document without the label
marker, `process_md_file` opens the file for writing and writes the
(unchanged) text back: the event trace of processing the marker-less
file `notes.md` contains a write, contradicting "no write to the file
occurs". -/
theorem claim7_counterexample :
    FileEvent.write (chars "notes.md") (chars "hello\n") ∈
      processEvents [] ⟨chars "notes.md", chars "hello\n"⟩ := by
  decide

/-- Claim C7, amended: when the label marker is absent the document's
content is left untouched — the single write writes text identical to
the original content — and no error is raised (the transform is total);
the file is deleted only by the name rule, independent of the marker. -/
theorem claim7_no_marker_trace (cwd : List (List Char)) (f : MDFile)
    (hm : findSub markerChars f.content = none) :
    processEvents cwd f =
      [FileEvent.read f.name f.content, FileEvent.write f.name f.content] ++
        (if isDeletedName f.name then [FileEvent.delete f.name] else []) := by
  simp [processEvents, processContent_of_no_marker cwd hm]

theorem claim7_no_marker_trace_witness :
    findSub markerChars (chars "hello\n") = none ∧
    processEvents [] ⟨chars "notes.md", chars "hello\n"⟩ =
      [FileEvent.read (chars "notes.md") (chars "hello\n"),
       FileEvent.write (chars "notes.md") (chars "hello\n")] ++
        (if isDeletedName (chars "notes.md") then [FileEvent.delete (chars "notes.md")]
         else []) :=
  ⟨by decide, claim7_no_marker_trace [] ⟨chars "notes.md", chars "hello\n"⟩ (by decide)⟩

/-- Claim C8: no error is caught anywhere: when the environment makes
one `.md` file's processing fail, the batch aborts with that error; the
files walked before it keep their processed state, while the failing
file and every file after it keep their original state. -/
theorem claim8_abort_on_error (cwd : List (List Char))
    (pre : List (MDFile × Option FsError)) (f : MDFile) (err : FsError)
    (rest : List (MDFile × Option FsError))
    (hpre : ∀ x ∈ pre, x.2 = none) (hmd : endsWithMd f.name = true) :
    runBatch cwd (pre ++ (f, some err) :: rest) =
      (process_all_md_files cwd (pre.map Prod.fst) ++ f :: rest.map Prod.fst, some err) := by
  induction pre with
  | nil => simp [runBatch, hmd, process_all_md_files]
  | cons x pre ih =>
    obtain ⟨g, e⟩ := x
    have he : e = none := hpre (g, e) (List.mem_cons_self _ _)
    subst he
    have ih' := ih (fun y hy => hpre y (List.mem_cons_of_mem _ hy))
    by_cases h1 : endsWithMd g.name = true
    · cases hpm : process_md_file cwd g with
      | some m =>
        simp [runBatch, h1, hpm, ih', process_all_md_files, processStep]
      | none =>
        simp [runBatch, h1, hpm, ih', process_all_md_files, processStep]
    · simp [runBatch, h1, ih', process_all_md_files, processStep]

theorem claim8_abort_on_error_witness :
    (∀ x ∈ [((⟨chars "a.md", chars "x\n"⟩ : MDFile), (none : Option FsError))], x.2 = none) ∧
    endsWithMd (chars "b.md") = true ∧
    runBatch []
        ([(⟨chars "a.md", chars "x\n"⟩, none)] ++
          (⟨chars "b.md", chars "y\n"⟩, some FsError.ioError) ::
            [(⟨chars "c.md", chars "z\n"⟩, none)]) =
      (process_all_md_files [] [⟨chars "a.md", chars "x\n"⟩] ++
        ⟨chars "b.md", chars "y\n"⟩ :: [⟨chars "c.md", chars "z\n"⟩], some FsError.ioError) :=
  ⟨by decide, by decide,
    claim8_abort_on_error [] [(⟨chars "a.md", chars "x\n"⟩, none)]
      ⟨chars "b.md", chars "y\n"⟩ FsError.ioError [(⟨chars "c.md", chars "z\n"⟩, none)]
      (by decide) (by decide)⟩

/-- Claim C9: an empty pair of parentheses inside the labeled field's
value is not a Path Reference — the scanner's `[^)]+` demands at least
one character — so `()` is kept verbatim and scanning continues after
it. -/
theorem claim9_empty_parens_kept (cwd : List (List Char)) (md u v : List Char)
    (hparse : parse_inherits md = some (u ++ '(' :: ')' :: v))
    (hu : '(' ∉ u) :
    replace_paths_with_empty_brackets cwd (u ++ '(' :: ')' :: v) =
      u ++ '(' :: ')' :: replace_paths_with_empty_brackets cwd v := by
  unfold replace_paths_with_empty_brackets
  rw [subParens_append_no_lparen _ _ hu]
  rw [subParens_empty_run _ (')' :: v) v (by simp [breakRParen])]
  rw [subParens_not_lparen _ v (by decide)]

theorem claim9_empty_parens_kept_witness :
    parse_inherits (chars "**Inherits:** x () y\n") = some (chars "x () y") ∧
    replace_paths_with_empty_brackets [] (chars "x () y") =
      chars "x " ++ '(' :: ')' :: replace_paths_with_empty_brackets [] (chars " y") :=
  ⟨by decide,
    claim9_empty_parens_kept [] (chars "**Inherits:** x () y\n") (chars "x ") (chars " y")
      (by decide) (by decide)⟩

/-- Claim C10: when the label marker is present but the captured value
strips to the empty string, Python's truthiness test rejects it and the
document text is returned unchanged — the empty value is never passed to
the document-wide replace. -/
theorem claim10_empty_value_unchanged (cwd : List (List Char)) (md : List Char)
    (h : parse_inherits md = some []) :
    processContent cwd md = md := by
  simp [processContent, h]

theorem claim10_empty_value_unchanged_witness :
    parse_inherits (chars "**Inherits:** \n") = some [] ∧
    processContent [] (chars "**Inherits:** \n") = chars "**Inherits:** \n" :=
  ⟨by decide, claim10_empty_value_unchanged [] (chars "**Inherits:** \n") (by decide)⟩

end RefactorDoc
